import Mathlib

/-!
Verification of the document model of a minimal terminal text editor
(`src/main.rs`, struct `Kiro`).  The buffer is a sequence of lines of
characters, the cursor a (row, column) pair, and the operations are the
editor's insert / delete / cursor-movement / scroll / open / save functions,
translated directly from the Rust source.
-/

namespace Editor

/-- Cursor position: `row` is a line index, `column` an insertion point. -/
structure Cursor where
  row : Nat
  column : Nat
deriving DecidableEq, Repr

/-- Editor state, mirroring `struct Kiro` in the source: line buffer,
cursor, scroll row offset and optional file path. -/
structure Kiro where
  buffer : List (List Char)
  cursor : Cursor
  row_offset : Nat
  path : Option String
deriving DecidableEq, Repr

/-- The `Default` impl: one empty line, cursor (0,0), offset 0, no path. -/
def kiroDefault : Kiro :=
  { buffer := [[]], cursor := ⟨0, 0⟩, row_offset := 0, path := none }

/-- Rust `char::is_control`: Unicode category Cc, i.e. U+0000..U+001F and
U+007F..U+009F. -/
def rustIsControl (c : Char) : Bool :=
  c.toNat ≤ 0x1f || (0x7f ≤ c.toNat && c.toNat ≤ 0x9f)

/-- Rust `char::is_whitespace`: the Unicode White_Space property. -/
def rustIsWhitespace (c : Char) : Bool :=
  let n := c.toNat
  (0x09 ≤ n && n ≤ 0x0d) || n = 0x20 || n = 0x85 || n = 0xa0 || n = 0x1680 ||
    (0x2000 ≤ n && n ≤ 0x200a) || n = 0x2028 || n = 0x2029 || n = 0x202f ||
    n = 0x205f || n = 0x3000

/-- The line of the buffer at row `r` (`self.buffer[r]`; rows are in range
in every valid state). -/
def lineAt (st : Kiro) (r : Nat) : List Char :=
  st.buffer.getD r []

/-- Rust `Vec::insert(i, a)`: splice `a` into the list before position `i`. -/
def insertAt (i : Nat) (a : α) (l : List α) : List α :=
  l.take i ++ a :: l.drop i

/-- The source `fn cursor_up`: if row > 0, move up one row and clamp the column to the
new line's length. -/
def cursor_up (st : Kiro) : Kiro :=
  if st.cursor.row > 0 then
    let r := st.cursor.row - 1
    { st with cursor := ⟨r, min (st.buffer.getD r []).length st.cursor.column⟩ }
  else st

/-- The source `fn cursor_down`: if row + 1 < line count, move down one row and clamp
the column to the new line's length. -/
def cursor_down (st : Kiro) : Kiro :=
  if st.cursor.row + 1 < st.buffer.length then
    let r := st.cursor.row + 1
    { st with cursor := ⟨r, min st.cursor.column (st.buffer.getD r []).length⟩ }
  else st

/-- The source `fn cursor_left`: the source tests `self.cursor.column > 1` (not `> 0`),
so the column only decreases while it is at least 2. -/
def cursor_left (st : Kiro) : Kiro :=
  if st.cursor.column > 1 then
    { st with cursor := ⟨st.cursor.row, st.cursor.column - 1⟩ }
  else st

/-- The source `fn cursor_right`: column becomes `min (column + 1) (current line length)`. -/
def cursor_right (st : Kiro) : Kiro :=
  { st with
    cursor :=
      ⟨st.cursor.row,
        min (st.cursor.column + 1) (st.buffer.getD st.cursor.row []).length⟩ }

/-- The source `fn insert`: a newline splits the current line at the cursor column and
the suffix becomes the next line, cursor moving to its start; any other
non-control character is spliced into the current line and the cursor moves
right; control characters are ignored. -/
def insert (c : Char) (st : Kiro) : Kiro :=
  if c = '\n' then
    let line := st.buffer.getD st.cursor.row []
    let pre := line.take st.cursor.column
    let rest := line.drop st.cursor.column
    { st with
      buffer := insertAt (st.cursor.row + 1) rest (st.buffer.set st.cursor.row pre),
      cursor := ⟨st.cursor.row + 1, 0⟩ }
  else if rustIsControl c then st
  else
    let line := st.buffer.getD st.cursor.row []
    let line' := line.take st.cursor.column ++ c :: line.drop st.cursor.column
    cursor_right { st with buffer := st.buffer.set st.cursor.row line' }

/-- The source `fn delete`: with column > 0, `split_off(column)` the current line, `pop`
the prefix and reattach (removing the character before the cursor).  With
column = 0 and row > 0, `split_off(row)` the buffer, `pop` the LAST CHARACTER
of line row-1 of the remaining prefix, reappend the split-off lines, and put
the cursor at the end of line row-1.  Note the second branch pops a character
from the previous line; it does not join the two lines. -/
def delete (st : Kiro) : Kiro :=
  if st.cursor.column > 0 then
    let line := st.buffer.getD st.cursor.row []
    let pre := line.take st.cursor.column
    let later := line.drop st.cursor.column
    let line' := pre.dropLast ++ later
    { st with
      buffer := st.buffer.set st.cursor.row line',
      cursor := ⟨st.cursor.row, st.cursor.column - 1⟩ }
  else if st.cursor.row > 0 then
    let pre := st.buffer.take st.cursor.row
    let later := st.buffer.drop st.cursor.row
    let pre' := pre.set (st.cursor.row - 1) ((pre.getD (st.cursor.row - 1) []).dropLast)
    let buffer' := pre' ++ later
    let r := st.cursor.row - 1
    { st with
      buffer := buffer',
      cursor := ⟨r, (buffer'.getD r []).length⟩ }
  else st

/-- The source `fn scroll` with the terminal height `rows` passed explicitly:
`row_offset := min row_offset cursor.row`, then if `cursor.row + 1 ≥ rows`
also `row_offset := max row_offset (cursor.row + 1 - rows)`. -/
def scroll (rows : Nat) (st : Kiro) : Kiro :=
  let ro := min st.row_offset st.cursor.row
  let ro' := if st.cursor.row + 1 ≥ rows then max ro (st.cursor.row + 1 - rows) else ro
  { st with row_offset := ro' }

/-- Split a character sequence at every newline; always returns at least one
(possibly empty) segment, e.g. `"ab\nc" ↦ ["ab","c"]`, `"a\n" ↦ ["a",""]`. -/
def splitNL : List Char → List (List Char)
  | [] => [[]]
  | c :: cs =>
    match splitNL cs with
    | [] => [[]]
    | l :: ls => if c = '\n' then [] :: l :: ls else (c :: l) :: ls

/-- Strip one trailing carriage return, as Rust `str::lines` does per line. -/
def stripCR (l : List Char) : List Char :=
  if l.getLast? = some '\r' then l.dropLast else l

/-- Rust `str::lines`: split at newlines, drop the optional final empty
segment, strip one trailing `\r` from each line. -/
def rustLines (s : List Char) : List (List Char) :=
  let parts := splitNL s
  let parts := if parts.getLast? = some [] then parts.dropLast else parts
  parts.map stripCR

/-- Rust `str::trim_end`: remove trailing whitespace characters. -/
def trimEnd (l : List Char) : List Char :=
  (l.reverse.dropWhile rustIsWhitespace).reverse

/-- The buffer `fn open` builds from a read result: on success the file's
lines each trimmed of trailing whitespace (one empty line if that leaves no
lines), on failure one empty line. -/
def openBuffer (content : Option (List Char)) : List (List Char) :=
  match content with
  | some s =>
    let b := (rustLines s).map trimEnd
    if b = [] then [[]] else b
  | none => [[]]

/-- The source `fn open`: set the buffer from the read result, the path to the given
path, the cursor to (0,0) and the row offset to 0. -/
def openK (content : Option (List Char)) (p : String) (_st : Kiro) : Kiro :=
  { buffer := openBuffer content, cursor := ⟨0, 0⟩, row_offset := 0, path := some p }

/-- The byte sequence `fn save` writes on full success: every buffer line in
order, each followed by a newline. -/
def saveContent (buffer : List (List Char)) : List Char :=
  (buffer.map (fun l => l ++ ['\n'])).flatten

/-- One character-write at a time against an oracle `ok` telling which write
calls succeed; the first failing write is an `unwrap` panic (`Except.error`). -/
def runWrites : List Char → (Nat → Bool) → Nat → Except Unit (List Char)
  | [], _, _ => .ok []
  | c :: cs, ok, i =>
    if ok i then
      match runWrites cs ok (i + 1) with
      | .ok out => .ok (c :: out)
      | .error e => .error e
    else .error ()

/-- The source `fn save`: with no path, or when `File::create` fails, nothing is written
and the function returns normally; otherwise the buffer lines are written
character by character, each line followed by a newline, and a failing write
panics (the source calls `.unwrap()` on every write). -/
def saveK (st : Kiro) (createOk : Bool) (ok : Nat → Bool) : Except Unit (List Char) :=
  match st.path with
  | none => .ok []
  | some _ =>
    if createOk then runWrites (saveContent st.buffer) ok 0
    else .ok []

/-- The decoded input events the editor loop applies to the state. -/
inductive Ev where
  | ins (c : Char)
  | del
  | up
  | down
  | left
  | right
deriving DecidableEq, Repr

/-- Apply one decoded event to the state (the `match` in `fn main`). -/
def applyEv : Ev → Kiro → Kiro
  | .ins c => insert c
  | .del => delete
  | .up => cursor_up
  | .down => cursor_down
  | .left => cursor_left
  | .right => cursor_right

/-- The editor loop: each event is applied and then `scroll` runs. -/
def run (rows : Nat) (st : Kiro) : List Ev → Kiro
  | [] => st
  | e :: evs => run rows (scroll rows (applyEv e st)) evs

/-- A state reachable by the program: `open` on some read result from the
default state, followed by any event sequence under terminal height `rows`. -/
def Reachable (rows : Nat) (st : Kiro) : Prop :=
  ∃ content p evs, st = run rows (openK content p kiroDefault) evs

/-- The data-model invariants: non-empty line sequence, row a valid line
index, column a valid insertion point in its line. -/
def Valid (st : Kiro) : Prop :=
  st.buffer ≠ [] ∧ st.cursor.row < st.buffer.length ∧
    st.cursor.column ≤ (lineAt st st.cursor.row).length

instance (st : Kiro) : Decidable (Valid st) := by
  unfold Valid
  infer_instance


/-! ## Frame lemmas for the cursor moves and scroll -/

lemma cursor_up_frame (st : Kiro) :
    (cursor_up st).buffer = st.buffer ∧ (cursor_up st).row_offset = st.row_offset ∧
      (cursor_up st).path = st.path := by
  unfold cursor_up
  split <;> exact ⟨rfl, rfl, rfl⟩

lemma cursor_down_frame (st : Kiro) :
    (cursor_down st).buffer = st.buffer ∧ (cursor_down st).row_offset = st.row_offset ∧
      (cursor_down st).path = st.path := by
  unfold cursor_down
  split <;> exact ⟨rfl, rfl, rfl⟩

lemma cursor_left_frame (st : Kiro) :
    (cursor_left st).buffer = st.buffer ∧ (cursor_left st).row_offset = st.row_offset ∧
      (cursor_left st).path = st.path := by
  unfold cursor_left
  split <;> exact ⟨rfl, rfl, rfl⟩

lemma cursor_right_frame (st : Kiro) :
    (cursor_right st).buffer = st.buffer ∧ (cursor_right st).row_offset = st.row_offset ∧
      (cursor_right st).path = st.path := ⟨rfl, rfl, rfl⟩

lemma scroll_frame (rows : Nat) (st : Kiro) :
    (scroll rows st).buffer = st.buffer ∧ (scroll rows st).cursor = st.cursor ∧
      (scroll rows st).path = st.path := ⟨rfl, rfl, rfl⟩

/-- Claim C10: the four cursor movements leave the buffer, the path and the
row offset unchanged, and scroll leaves the buffer, the path and the cursor
unchanged. -/
theorem moves_and_scroll_only_touch_their_field (st : Kiro) (rows : Nat) :
    ((cursor_up st).buffer = st.buffer ∧ (cursor_up st).path = st.path ∧
      (cursor_up st).row_offset = st.row_offset) ∧
    ((cursor_down st).buffer = st.buffer ∧ (cursor_down st).path = st.path ∧
      (cursor_down st).row_offset = st.row_offset) ∧
    ((cursor_left st).buffer = st.buffer ∧ (cursor_left st).path = st.path ∧
      (cursor_left st).row_offset = st.row_offset) ∧
    ((cursor_right st).buffer = st.buffer ∧ (cursor_right st).path = st.path ∧
      (cursor_right st).row_offset = st.row_offset) ∧
    ((scroll rows st).buffer = st.buffer ∧ (scroll rows st).path = st.path ∧
      (scroll rows st).cursor = st.cursor) := by
  obtain ⟨u1, u2, u3⟩ := cursor_up_frame st
  obtain ⟨d1, d2, d3⟩ := cursor_down_frame st
  obtain ⟨l1, l2, l3⟩ := cursor_left_frame st
  obtain ⟨r1, r2, r3⟩ := cursor_right_frame st
  obtain ⟨s1, s2, s3⟩ := scroll_frame rows st
  exact ⟨⟨u1, u3, u2⟩, ⟨d1, d3, d2⟩, ⟨l1, l3, l2⟩, ⟨r1, r3, r2⟩, ⟨s1, s3, s2⟩⟩

/-- Claim C1 (counter-evaluation): from buffer `["ab","cd"]` with cursor
(1,0), `delete` yields buffer `["a","cd"]` with cursor (0,1) — it pops the
last character of the previous line and does NOT join the two lines, so the
claimed result `["abcd"]` with cursor (0,2) is not what the code computes. -/
theorem delete_at_line_start_pops_prev_char :
    delete { buffer := [['a', 'b'], ['c', 'd']], cursor := ⟨1, 0⟩,
             row_offset := 0, path := none } =
      { buffer := [['a'], ['c', 'd']], cursor := ⟨0, 1⟩,
        row_offset := 0, path := none } ∧
    [['a'], ['c', 'd']] ≠ [['a', 'b', 'c', 'd']] := by
  exact ⟨by decide, by decide⟩

/-- Claim C2 (counter-evaluation): from the single-line buffer `["ab"]` with
cursor (0,1), inserting a newline and then issuing delete at the resulting
cursor position (1,0) yields buffer `["","b"]` with cursor (0,0), not the
original `["ab"]` with cursor (0,1): the split is not undone because the
delete branch pops a character instead of joining the lines. -/
theorem newline_then_delete_is_not_inverse :
    delete (insert '\n' { buffer := [['a', 'b']], cursor := ⟨0, 1⟩,
                          row_offset := 0, path := none }) =
      { buffer := [[], ['b']], cursor := ⟨0, 0⟩, row_offset := 0, path := none } ∧
    ({ buffer := [[], ['b']], cursor := ⟨0, 0⟩, row_offset := 0, path := none } : Kiro) ≠
      { buffer := [['a', 'b']], cursor := ⟨0, 1⟩, row_offset := 0, path := none } := by
  exact ⟨by decide, by decide⟩

/-- Claim C3 (counter-evaluation): `cursor_left` at column 1 is a no-op (the
source tests `column > 1`), so the column is NOT decremented to 0 even though
it is positive, contradicting "decrements whenever column > 0" and "no-op
exactly when column = 0". -/
theorem cursor_left_noop_at_column_one :
    cursor_left { buffer := [['a']], cursor := ⟨0, 1⟩, row_offset := 0, path := none } =
      { buffer := [['a']], cursor := ⟨0, 1⟩, row_offset := 0, path := none } := by
  decide

/-- Claim C8: `open` never propagates a failure.  In every case it resets
the cursor to (0,0), the row offset to 0 and the path to the given path; on
a read failure the buffer becomes exactly one empty line; on success the
buffer becomes the file's lines each trimmed of trailing whitespace, with a
single empty line as fallback when that leaves no lines (empty file). -/
theorem open_resets_state (content : Option (List Char)) (p : String) (st : Kiro) :
    (openK content p st).cursor = ⟨0, 0⟩ ∧
    (openK content p st).row_offset = 0 ∧
    (openK content p st).path = some p ∧
    (content = none → (openK content p st).buffer = [[]]) ∧
    (∀ s, content = some s → rustLines s = [] → (openK content p st).buffer = [[]]) ∧
    (∀ s, content = some s → rustLines s ≠ [] →
      (openK content p st).buffer = (rustLines s).map trimEnd) := by
  refine ⟨rfl, rfl, rfl, ?_, ?_, ?_⟩
  · intro h
    subst h
    rfl
  · intro s h hnil
    subst h
    simp [openK, openBuffer, hnil]
  · intro s h hnil
    subst h
    have hb : (rustLines s).map trimEnd ≠ [] := by
      simpa using hnil
    simp [openK, openBuffer, hb]

/-- Witness for `open_resets_state` at a concrete read result. -/
theorem open_resets_state_witness :
    (openK (some ['a', ' ']) "f" kiroDefault).cursor = ⟨0, 0⟩ ∧
    rustLines ['a', ' '] ≠ [] ∧
    (openK (some ['a', ' ']) "f" kiroDefault).buffer = (rustLines ['a', ' ']).map trimEnd :=
  ⟨(open_resets_state (some ['a', ' ']) "f" kiroDefault).1, by decide,
    (open_resets_state (some ['a', ' ']) "f" kiroDefault).2.2.2.2.2 ['a', ' '] rfl (by decide)⟩

lemma runWrites_all_ok (l : List Char) (ok : Nat → Bool) (hok : ∀ i, ok i = true) :
    ∀ i, runWrites l ok i = .ok l := by
  induction l with
  | nil => intro i; rfl
  | cons c cs ih =>
    intro i
    simp only [runWrites, hok i, if_true, ih (i + 1)]

/-- Claim C9 (counterexample): with a stored path, file creation succeeding
and the first character-write failing, `save` hits an `unwrap` panic
(`Except.error`), i.e. a mid-write I/O failure DOES terminate the process,
contrary to the claim that no save outcome terminates it. -/
theorem save_write_failure_panics :
    saveK { buffer := [['a']], cursor := ⟨0, 0⟩, row_offset := 0, path := some ("f") }
        true (fun _ => false) = .error () := rfl

/-- Claim C9 (amended): `save` never touches the in-memory state (it reads
the state immutably); a file-creation failure writes nothing and returns
normally; and when every write succeeds the written bytes are exactly the
buffer lines in order, each followed by a newline.  (A mid-write failure,
by contrast, panics — see the counterexample.) -/
theorem save_success_or_create_failure_is_benign (st : Kiro) (ok : Nat → Bool) :
    saveK st false ok = .ok [] ∧
    ((∀ i, ok i = true) → ∀ p, st.path = some p →
      saveK st true ok = .ok (saveContent st.buffer)) := by
  constructor
  · unfold saveK
    cases st.path <;> simp
  · intro hok p hp
    simp only [saveK, hp, if_true]
    exact runWrites_all_ok _ ok hok 0

/-- Witness for `save_success_or_create_failure_is_benign` at a concrete
state and an all-succeeding write oracle. -/
theorem save_benign_witness :
    saveK { buffer := [['a']], cursor := ⟨0, 0⟩, row_offset := 0, path := some ("f") }
        false (fun _ => true) = .ok [] ∧
    saveK { buffer := [['a']], cursor := ⟨0, 0⟩, row_offset := 0, path := some ("f") }
        true (fun _ => true) = .ok (saveContent [['a']]) :=
  ⟨(save_success_or_create_failure_is_benign
      { buffer := [['a']], cursor := ⟨0, 0⟩, row_offset := 0, path := some ("f") }
      (fun _ => true)).1,
    (save_success_or_create_failure_is_benign
      { buffer := [['a']], cursor := ⟨0, 0⟩, row_offset := 0, path := some ("f") }
      (fun _ => true)).2 (fun _ => rfl) "f" rfl⟩

lemma getD_set_eq {α : Type} (l : List α) (i : Nat) (a d : α) (h : i < l.length) :
    (l.set i a).getD i d = a := by
  induction l generalizing i with
  | nil => simp at h
  | cons x xs ih =>
    cases i with
    | zero => rfl
    | succ n => exact ih n (by simpa using h)

lemma set_getD_self {α : Type} (l : List α) (i : Nat) (d : α) :
    l.set i (l.getD i d) = l := by
  induction l generalizing i with
  | nil => rfl
  | cons x xs ih =>
    cases i with
    | zero => simp
    | succ n =>
      show x :: xs.set n (xs.getD n d) = x :: xs
      rw [ih n]

/-- Claim C6: inserting a single non-control, non-newline character and then
immediately invoking delete restores the exact prior buffer and cursor. -/
theorem insert_then_delete_cancels (st : Kiro) (c : Char)
    (hv : Valid st) (hc : rustIsControl c = false) (hn : c ≠ '\n') :
    delete (insert c st) = st := by
  obtain ⟨hne, hrow, hcol⟩ := hv
  rcases st with ⟨buf, ⟨r, col⟩, ro, p⟩
  simp only [lineAt] at hcol hrow hne
  set line := buf.getD r [] with hline
  set A := line.take col with hA
  set B := line.drop col with hB
  have hAlen : A.length = col := by
    rw [hA, List.length_take]
    exact Nat.min_eq_left hcol
  have h1 : insert c ⟨buf, ⟨r, col⟩, ro, p⟩ = ⟨buf.set r (A ++ c :: B), ⟨r, col + 1⟩, ro, p⟩ := by
    unfold insert cursor_right
    rw [if_neg hn, if_neg (by simp [hc])]
    simp only []
    rw [getD_set_eq _ _ _ _ hrow]
    have : min (col + 1) (A ++ c :: B).length = col + 1 := by
      apply Nat.min_eq_left
      simp [hAlen]
    rw [this]
  rw [h1]
  unfold delete
  rw [if_pos (Nat.succ_pos col)]
  simp only []
  rw [getD_set_eq _ _ _ _ hrow]
  have hpre : (A ++ c :: B).take (col + 1) = A ++ [c] := by
    rw [List.take_append_eq_append_take, List.take_of_length_le (by omega),
      hAlen, Nat.add_sub_cancel_left]
    rfl
  have hlater : (A ++ c :: B).drop (col + 1) = B := by
    rw [List.drop_append_eq_append_drop, List.drop_eq_nil_of_le (by omega),
      hAlen, Nat.add_sub_cancel_left]
    rfl
  rw [hpre, hlater, List.dropLast_concat, hA, hB, List.take_append_drop,
    List.set_set, hline, set_getD_self, Nat.add_sub_cancel]

/-- Witness for `insert_then_delete_cancels` at a concrete state and character. -/
theorem insert_then_delete_cancels_witness :
    Valid { buffer := [['a', 'b']], cursor := ⟨0, 1⟩, row_offset := 0, path := none } ∧
    rustIsControl 'x' = false ∧ 'x' ≠ '\n' ∧
    delete (insert 'x' { buffer := [['a', 'b']], cursor := ⟨0, 1⟩,
                         row_offset := 0, path := none }) =
      { buffer := [['a', 'b']], cursor := ⟨0, 1⟩, row_offset := 0, path := none } :=
  ⟨by decide, by decide, by decide,
    insert_then_delete_cancels
      { buffer := [['a', 'b']], cursor := ⟨0, 1⟩, row_offset := 0, path := none }
      'x' (by decide) (by decide) (by decide)⟩

lemma length_insertAt {α : Type} (i : Nat) (a : α) (l : List α) (h : i ≤ l.length) :
    (insertAt i a l).length = l.length + 1 := by
  simp [insertAt]
  omega

lemma set_ne_nil {α : Type} (l : List α) (i : Nat) (a : α) (h : l ≠ []) :
    l.set i a ≠ [] := by
  cases l with
  | nil => simp at h
  | cons x xs => cases i <;> simp

lemma valid_cursor_up (st : Kiro) (hv : Valid st) : Valid (cursor_up st) := by
  obtain ⟨hne, hrow, hcol⟩ := hv
  unfold cursor_up
  split
  · exact ⟨hne, by simp only [] at *; omega, Nat.min_le_left _ _⟩
  · exact ⟨hne, hrow, hcol⟩

lemma valid_cursor_down (st : Kiro) (hv : Valid st) : Valid (cursor_down st) := by
  obtain ⟨hne, hrow, hcol⟩ := hv
  unfold cursor_down
  split
  · next h => exact ⟨hne, h, Nat.min_le_right _ _⟩
  · exact ⟨hne, hrow, hcol⟩

lemma valid_cursor_left (st : Kiro) (hv : Valid st) : Valid (cursor_left st) := by
  obtain ⟨hne, hrow, hcol⟩ := hv
  unfold cursor_left
  split
  · refine ⟨hne, hrow, ?_⟩
    simp only [lineAt] at hcol ⊢
    omega
  · exact ⟨hne, hrow, hcol⟩

lemma valid_cursor_right (st : Kiro) (hne : st.buffer ≠ [])
    (hrow : st.cursor.row < st.buffer.length) : Valid (cursor_right st) :=
  ⟨hne, hrow, Nat.min_le_right _ _⟩

lemma valid_insert (c : Char) (st : Kiro) (hv : Valid st) : Valid (insert c st) := by
  obtain ⟨hne, hrow, hcol⟩ := hv
  unfold insert
  split
  · refine ⟨?_, ?_, Nat.zero_le _⟩
    · simp [insertAt]
    · simp only [insertAt, List.length_append, List.length_cons, List.length_take,
        List.length_drop, List.length_set]
      omega
  · split
    · exact ⟨hne, hrow, hcol⟩
    · refine valid_cursor_right _ (set_ne_nil _ _ _ hne) ?_
      simp only [List.length_set]
      exact hrow

lemma valid_delete (st : Kiro) (hv : Valid st) : Valid (delete st) := by
  obtain ⟨hne, hrow, hcol⟩ := hv
  simp only [lineAt] at hcol
  unfold delete
  split
  · next hpos =>
    refine ⟨set_ne_nil _ _ _ hne, ?_, ?_⟩
    · simp only [List.length_set]
      exact hrow
    · simp only [lineAt, getD_set_eq _ _ _ _ hrow, List.length_append,
        List.length_dropLast, List.length_take, List.length_drop]
      omega
  · next hpos =>
    split
    · next hr =>
      dsimp only
      refine ⟨?_, ?_, Nat.le_refl _⟩
      · intro hnil
        have hlen := congrArg List.length hnil
        simp only [List.length_append, List.length_set, List.length_take,
          List.length_drop, List.length_nil] at hlen
        omega
      · simp only [List.length_append, List.length_set, List.length_take,
          List.length_drop]
        omega
    · exact ⟨hne, hrow, by simpa only [lineAt] using hcol⟩

lemma valid_applyEv (e : Ev) (st : Kiro) (hv : Valid st) : Valid (applyEv e st) := by
  cases e with
  | ins c => exact valid_insert c st hv
  | del => exact valid_delete st hv
  | up => exact valid_cursor_up st hv
  | down => exact valid_cursor_down st hv
  | left => exact valid_cursor_left st hv
  | right => exact valid_cursor_right st hv.1 hv.2.1

/-- Claim C4: from any state satisfying the data-model invariants (non-empty
line sequence, row a valid line index, column a valid insertion point),
every supported operation — insert character, insert newline, delete, and
the four cursor moves — yields a state satisfying them again. -/
theorem every_operation_preserves_invariants (e : Ev) (st : Kiro) (hv : Valid st) :
    Valid (applyEv e st) :=
  valid_applyEv e st hv

/-- Witness for `every_operation_preserves_invariants` at a concrete state
and event. -/
theorem every_operation_preserves_invariants_witness :
    Valid { buffer := [['a', 'b'], ['c']], cursor := ⟨1, 0⟩,
            row_offset := 0, path := none } ∧
    Valid (applyEv .del { buffer := [['a', 'b'], ['c']], cursor := ⟨1, 0⟩,
                          row_offset := 0, path := none }) :=
  ⟨by decide,
    every_operation_preserves_invariants .del
      { buffer := [['a', 'b'], ['c']], cursor := ⟨1, 0⟩, row_offset := 0, path := none }
      (by decide)⟩

lemma insert_row_offset (c : Char) (st : Kiro) :
    (insert c st).row_offset = st.row_offset := by
  unfold insert cursor_right
  split
  · rfl
  · split <;> rfl

lemma delete_row_offset (st : Kiro) : (delete st).row_offset = st.row_offset := by
  unfold delete
  split
  · rfl
  · split <;> rfl

lemma applyEv_row_offset (e : Ev) (st : Kiro) :
    (applyEv e st).row_offset = st.row_offset := by
  cases e with
  | ins c => exact insert_row_offset c st
  | del => exact delete_row_offset st
  | up => exact (cursor_up_frame st).2.1
  | down => exact (cursor_down_frame st).2.1
  | left => exact (cursor_left_frame st).2.1
  | right => exact (cursor_right_frame st).2.1

lemma insert_length_mono (c : Char) (st : Kiro) (hrow : st.cursor.row < st.buffer.length) :
    st.buffer.length ≤ (insert c st).buffer.length := by
  unfold insert cursor_right
  split
  · dsimp only
    simp only [insertAt, List.length_append, List.length_cons, List.length_take,
      List.length_drop, List.length_set]
    omega
  · split
    · exact Nat.le_refl _
    · dsimp only
      simp only [List.length_set]
      exact Nat.le_refl _

lemma delete_length_mono (st : Kiro) (hrow : st.cursor.row < st.buffer.length) :
    st.buffer.length ≤ (delete st).buffer.length := by
  unfold delete
  split
  · dsimp only
    simp only [List.length_set]
    exact Nat.le_refl _
  · split
    · dsimp only
      simp only [List.length_append, List.length_set, List.length_take, List.length_drop]
      omega
    · exact Nat.le_refl _

lemma applyEv_length_mono (e : Ev) (st : Kiro) (hrow : st.cursor.row < st.buffer.length) :
    st.buffer.length ≤ (applyEv e st).buffer.length := by
  cases e with
  | ins c => exact insert_length_mono c st hrow
  | del => exact delete_length_mono st hrow
  | up => exact Nat.le_of_eq (congrArg List.length (cursor_up_frame st).1).symm
  | down => exact Nat.le_of_eq (congrArg List.length (cursor_down_frame st).1).symm
  | left => exact Nat.le_of_eq (congrArg List.length (cursor_left_frame st).1).symm
  | right => exact Nat.le_of_eq (congrArg List.length (cursor_right_frame st).1).symm

/-- The scroll-offset invariant the editor loop maintains: the state is
valid and the row offset never exceeds `buffer length - rows` (expressed
without truncated subtraction). -/
def Inv (rows : Nat) (st : Kiro) : Prop :=
  Valid st ∧ st.row_offset + rows ≤ max st.buffer.length rows

lemma valid_scroll (rows : Nat) (st : Kiro) (hv : Valid st) : Valid (scroll rows st) := by
  obtain ⟨hne, hrow, hcol⟩ := hv
  exact ⟨hne, hrow, hcol⟩

lemma inv_step (rows : Nat) (e : Ev) (st : Kiro) (h : Inv rows st) :
    Inv rows (scroll rows (applyEv e st)) := by
  obtain ⟨hv, hro⟩ := h
  have hv1 : Valid (applyEv e st) := valid_applyEv e st hv
  refine ⟨valid_scroll rows _ hv1, ?_⟩
  have hlen : st.buffer.length ≤ (applyEv e st).buffer.length :=
    applyEv_length_mono e st hv.2.1
  have hro1 : (applyEv e st).row_offset = st.row_offset := applyEv_row_offset e st
  have hrow1 : (applyEv e st).cursor.row < (applyEv e st).buffer.length := hv1.2.1
  unfold scroll
  dsimp only
  split
  · simp only [hro1] at *
    omega
  · simp only [hro1] at *
    omega

lemma run_inv (rows : Nat) (evs : List Ev) (st : Kiro) (h : Inv rows st) :
    Inv rows (run rows st evs) := by
  induction evs generalizing st with
  | nil => exact h
  | cons e evs ih => exact ih _ (inv_step rows e st h)

lemma valid_openK (content : Option (List Char)) (p : String) (st : Kiro) :
    Valid (openK content p st) := by
  have hne : openBuffer content ≠ [] := by
    unfold openBuffer
    cases content with
    | none => simp
    | some s =>
      dsimp only
      split
      · simp
      · assumption
  exact ⟨hne, by simpa using List.length_pos.mpr hne, Nat.zero_le _⟩

lemma reachable_inv (rows : Nat) (st : Kiro) (h : Reachable rows st) : Inv rows st := by
  obtain ⟨content, p, evs, rfl⟩ := h
  refine run_inv rows evs _ ⟨valid_openK content p kiroDefault, ?_⟩
  simp [openK]

/-- Claim C5: the scroll adjustment leaves the cursor row inside the window
`[row_offset, row_offset + rows)` for every valid state and terminal height
`rows ≥ 1`; and in a reachable state with a 5-line buffer, the cursor at
row 4 and terminal height 2, the adjusted row offset is exactly 3. -/
theorem scroll_keeps_cursor_in_window :
    (∀ (st : Kiro) (rows : Nat), Valid st → 1 ≤ rows →
      (scroll rows st).row_offset ≤ (scroll rows st).cursor.row ∧
      (scroll rows st).cursor.row < (scroll rows st).row_offset + rows) ∧
    (∀ st : Kiro, Reachable 2 st → st.buffer.length = 5 → st.cursor.row = 4 →
      (scroll 2 st).row_offset = 3) := by
  constructor
  · intro st rows _ hrows
    unfold scroll
    dsimp only
    split <;> constructor <;> omega
  · intro st hreach hlen5 hrow4
    have hro := (reachable_inv 2 st hreach).2
    rw [hlen5] at hro
    unfold scroll
    dsimp only
    rw [hrow4]
    simp only [if_pos (by omega : 4 + 1 ≥ 2)]
    omega

/-- Witness for `scroll_keeps_cursor_in_window`: a concrete reachable state
with 5 buffer lines and the cursor on row 4 under a height-2 terminal. -/
theorem scroll_keeps_cursor_in_window_witness :
    ((scroll 2 (run 2 (openK (some ['a', '\n', 'b', '\n', 'c', '\n', 'd', '\n', 'e'])
          "f" kiroDefault) [.down, .down, .down, .down])).row_offset = 3) ∧
    ((scroll 1 kiroDefault).row_offset ≤ (scroll 1 kiroDefault).cursor.row ∧
      (scroll 1 kiroDefault).cursor.row < (scroll 1 kiroDefault).row_offset + 1) :=
  ⟨scroll_keeps_cursor_in_window.2
      (run 2 (openK (some ['a', '\n', 'b', '\n', 'c', '\n', 'd', '\n', 'e'])
        "f" kiroDefault) [.down, .down, .down, .down])
      ⟨some ['a', '\n', 'b', '\n', 'c', '\n', 'd', '\n', 'e'], "f",
        [.down, .down, .down, .down], rfl⟩
      (by decide) (by decide),
    scroll_keeps_cursor_in_window.1 kiroDefault 1 (by decide) (by decide)⟩

/-- Join line segments with a newline between consecutive segments
(the inverse of `splitNL`). -/
def joinNL : List (List Char) → List Char
  | [] => []
  | [l] => l
  | l :: l₂ :: ls => l ++ '\n' :: joinNL (l₂ :: ls)

lemma splitNL_ne_nil (s : List Char) : splitNL s ≠ [] := by
  cases s with
  | nil => simp [splitNL]
  | cons c cs =>
    cases h : splitNL cs with
    | nil => simp [splitNL, h]
    | cons l ls =>
      simp only [splitNL, h]
      split <;> simp

lemma splitNL_cons_eq (c : Char) (cs l : List Char) (ls : List (List Char))
    (h : splitNL cs = l :: ls) :
    splitNL (c :: cs) = if c = '\n' then [] :: l :: ls else (c :: l) :: ls := by
  simp only [splitNL, h]

lemma joinNL_cons_cons (c : Char) (l : List Char) (ls : List (List Char)) :
    joinNL ((c :: l) :: ls) = c :: joinNL (l :: ls) := by
  cases ls <;> simp [joinNL]

lemma joinNL_cons_of_ne_nil (l : List Char) (ls : List (List Char)) (h : ls ≠ []) :
    joinNL (l :: ls) = l ++ '\n' :: joinNL ls := by
  cases ls with
  | nil => exact absurd rfl h
  | cons l₂ ls₂ => rfl

lemma joinNL_splitNL (s : List Char) : joinNL (splitNL s) = s := by
  induction s with
  | nil => rfl
  | cons c cs ih =>
    obtain ⟨l, ls, h⟩ : ∃ l ls, splitNL cs = l :: ls := by
      cases h : splitNL cs with
      | nil => exact absurd h (splitNL_ne_nil cs)
      | cons l ls => exact ⟨l, ls, rfl⟩
    rw [h] at ih
    rw [splitNL_cons_eq c cs l ls h]
    by_cases hc : c = '\n'
    · rw [if_pos hc, joinNL_cons_of_ne_nil _ _ (by simp), hc]
      simp [ih]
    · rw [if_neg hc, joinNL_cons_cons, ih]

lemma saveContent_eq_joinNL (ls : List (List Char)) :
    saveContent ls = joinNL (ls ++ [[]]) := by
  induction ls with
  | nil => rfl
  | cons l ls ih =>
    have hne : ls ++ [([] : List Char)] ≠ [] := by simp
    rw [saveContent, List.map_cons, List.flatten_cons, List.cons_append,
      joinNL_cons_of_ne_nil _ _ hne, ← ih]
    simp [saveContent]

lemma dropLast_append_getLast? {α : Type} (l : List α) (a : α)
    (h : l.getLast? = some a) : l.dropLast ++ [a] = l := by
  have hne : l ≠ [] := by
    intro hnil
    rw [hnil] at h
    simp at h
  have h2 := List.dropLast_concat_getLast hne
  rw [List.getLast?_eq_getLast l hne] at h
  rw [Option.some_inj.mp h] at h2
  exact h2

lemma endNL (s : List Char) (h : s.getLast? = some '\n') :
    (splitNL s).getLast? = some [] ∧ 2 ≤ (splitNL s).length := by
  induction s with
  | nil => simp at h
  | cons c cs ih =>
    cases cs with
    | nil =>
      simp at h
      subst h
      decide
    | cons c₂ cs₂ =>
      rw [List.getLast?_cons_cons] at h
      obtain ⟨hlast, hlen⟩ := ih h
      obtain ⟨l, ls, hcs⟩ : ∃ l ls, splitNL (c₂ :: cs₂) = l :: ls := by
        cases h2 : splitNL (c₂ :: cs₂) with
        | nil => exact absurd h2 (splitNL_ne_nil _)
        | cons l ls => exact ⟨l, ls, rfl⟩
      rw [hcs] at hlast hlen
      obtain ⟨l₂, ls₂, rfl⟩ : ∃ l₂ ls₂, ls = l₂ :: ls₂ := by
        cases ls with
        | nil => simp at hlen
        | cons a b => exact ⟨a, b, rfl⟩
      rw [splitNL_cons_eq c (c₂ :: cs₂) l (l₂ :: ls₂) hcs]
      split
      · refine ⟨?_, by simp⟩
        rw [List.getLast?_cons_cons]
        exact hlast
      · refine ⟨?_, by simp⟩
        rw [List.getLast?_cons_cons]
        rwa [List.getLast?_cons_cons] at hlast

lemma trimEnd_eq_self (l : List Char)
    (h : ∀ c, l.getLast? = some c → rustIsWhitespace c = false) : trimEnd l = l := by
  unfold trimEnd
  cases hl : l.reverse with
  | nil =>
    have : l = [] := by simpa using hl
    simp [this]
  | cons x xs =>
    have hx : l.getLast? = some x := by
      rw [List.getLast?_eq_head?_reverse, hl]
      rfl
    rw [List.dropWhile_cons, if_neg (by simp [h x hx])]
    rw [← hl, List.reverse_reverse]

lemma stripCR_eq_self (l : List Char)
    (h : ∀ c, l.getLast? = some c → rustIsWhitespace c = false) : stripCR l = l := by
  unfold stripCR
  split
  · next hcr =>
    have := h '\r' hcr
    simp [rustIsWhitespace] at this
  · rfl

/-- Claim C7: loading a file whose raw lines carry no trailing whitespace
(so no trailing `\r` either) and which ends with a final newline, then
saving with no intervening edits, reproduces the file byte for byte: load
strips per-line trailing whitespace (a no-op here) and save writes each
buffer line followed by one newline. -/
theorem open_then_save_round_trips (s : List Char) (p : String) (st : Kiro)
    (hend : s.getLast? = some '\n')
    (hws : ∀ l ∈ splitNL s, ∀ c, l.getLast? = some c → rustIsWhitespace c = false) :
    saveContent (openK (some s) p st).buffer = s := by
  obtain ⟨hlast, hlen2⟩ := endNL s hend
  have hmem : ∀ l ∈ (splitNL s).dropLast, l ∈ splitNL s :=
    fun l hl => (List.dropLast_sublist (splitNL s)).subset hl
  have hlines : rustLines s = (splitNL s).dropLast := by
    unfold rustLines
    dsimp only
    rw [if_pos hlast]
    rw [List.map_congr_left (fun l hl => stripCR_eq_self l (hws l (hmem l hl)))]
    simp
  have hbuf : (rustLines s).map trimEnd = (splitNL s).dropLast := by
    rw [hlines,
      List.map_congr_left (fun l hl => trimEnd_eq_self l (hws l (hmem l hl)))]
    simp
  have hbne : (splitNL s).dropLast ≠ [] := by
    intro hnil
    have := congrArg List.length hnil
    simp [List.length_dropLast] at this
    omega
  have hopen : (openK (some s) p st).buffer = (splitNL s).dropLast := by
    simp only [openK, openBuffer, hbuf]
    rw [if_neg hbne]
  rw [hopen, saveContent_eq_joinNL, dropLast_append_getLast? _ _ hlast,
    joinNL_splitNL]

/-- Witness for `open_then_save_round_trips` on the concrete file "ab\ncd\n". -/
theorem open_then_save_round_trips_witness :
    (['a', 'b', '\n', 'c', 'd', '\n'] : List Char).getLast? = some '\n' ∧
    saveContent (openK (some ['a', 'b', '\n', 'c', 'd', '\n']) "f" kiroDefault).buffer =
      ['a', 'b', '\n', 'c', 'd', '\n'] :=
  ⟨by decide,
    open_then_save_round_trips ['a', 'b', '\n', 'c', 'd', '\n'] "f" kiroDefault
      (by decide) (by decide)⟩

end Editor
